import Mathlib

namespace Day16

/-- A single bit, as in the source's `enum Bit { L = 0, H }`. -/
inductive Bit where
  | L
  | H
deriving DecidableEq

/-- Numeric value of a bit (`bit as u64` in the source). -/
def Bit.toNat : Bit → Nat
  | .L => 0
  | .H => 1

/-- Model of `Bit::from(num, bit)`: tests bit `bit` of `num`. -/
def Bit.fromNum (num bit : Nat) : Bit :=
  if num &&& (1 <<< bit) ≠ 0 then .H else .L

/-- State of the consuming bit reader: the source's `CountingIter` over the
remaining bits.  `processed` models the `processed: usize` field, which is
incremented on every `next()` call, including calls that return `None`.
(The `enumerate` indices attached in `parse_bits` are discarded by every
consumer via `.map(|x| x.1)`, so they are not modelled.) -/
structure RState where
  rest : List Bit
  processed : Nat
deriving DecidableEq

/-- Model of `Bit::as_num` applied to `bits.by_ref().map(|x| x.1).take(n)`:
accumulate up to `n` bits most-significant-first, starting from `acc`.
`take(n)` polls the underlying iterator; when the stream runs out early the
poll that returns `None` still increments `processed` (see `CountingIter::next`),
after which the loop in `as_num` stops.  When `n = 0`, `take(0)` returns
`None` without polling the underlying iterator at all.
The accumulator is a `u64` in the source, but only widths `n ≤ 15` are ever
used, so the arithmetic can never wrap and plain `Nat` is faithful. -/
def readAsNumAux : Nat → Nat → RState → Nat × RState
  | 0, acc, s => (acc, s)
  | n + 1, acc, s =>
    match s.rest with
    | [] => (acc, ⟨[], s.processed + 1⟩)
    | b :: r => readAsNumAux n (acc * 2 + b.toNat) ⟨r, s.processed + 1⟩

/-- Model of `Bit::as_num(bits.by_ref().map(|x| x.1).take(n))`. -/
def readAsNum (n : Nat) (s : RState) : Nat × RState :=
  readAsNumAux n 0 s

/-- The seven operator kinds of `enum OperatorType`. -/
inductive OperatorType where
  | sum
  | product
  | min
  | max
  | greaterThan
  | lessThan
  | equal
deriving DecidableEq

/-- Model of `OperatorType::from_type_id`.  The source panics on an unexpected id;
the panic is modelled as `none` (it is unreachable: the id comes from a
3-bit read and the literal id 4 is handled in another branch). -/
def OperatorType.from_type_id : Nat → Option OperatorType
  | 0 => some .sum
  | 1 => some .product
  | 2 => some .min
  | 3 => some .max
  | 5 => some .greaterThan
  | 6 => some .lessThan
  | 7 => some .equal
  | _ => none

/-- Model of `OperatorType::binary_op`. -/
def OperatorType.binary_op : OperatorType → Bool
  | .greaterThan | .lessThan | .equal => true
  | _ => false

/-- The packet tree.  The source's `struct Packet { version, contents }`
with `enum PacketContents { Literal(u64), Operator { ty, subpackets } }` is
represented as a single inductive; the `version` field is carried by both
constructors. -/
inductive Packet where
  | literal (version : Nat) (value : Nat)
  | operator (version : Nat) (ty : OperatorType) (subpackets : List Packet)

/-- The literal-value loop of `Packet::parse_helper` (type id 4): read one
continuation bit (erroring at end of input), then a 4-bit nibble, and fold it
into the accumulator.  The accumulator is a `u64`: `num <<= 4` discards the
high four bits, so each step is taken modulo `2 ^ 64`
(`(num <<< 4) ||| nibble = num * 16 + nibble` since `nibble < 16`).
The loop is made total with a fuel parameter bounding the iteration count;
the caller passes one more than the number of remaining bits, which is
enough because every iteration consumes at least the continuation bit. -/
def parseLiteralGroups : Nat → Nat → RState → Except String (Nat × RState)
  | 0, _, _ => .error "out of fuel"
  | fuel + 1, num, s =>
    match s.rest with
    | [] => .error "end of input reading literal"
    | b :: r =>
      let nr := readAsNum 4 ⟨r, s.processed + 1⟩
      let num' := (num * 16 + nr.1) % 2 ^ 64
      if b = .L then .ok (num', nr.2)
      else parseLiteralGroups fuel num' nr.2

/-- The two arity validations at the end of the operator branch of
`Packet::parse_helper`, in source order: the binary-arity check first,
then the non-empty check.  `some msg` models `return Err(msg)`. -/
def validateOperator (ty : OperatorType) (subpackets : List Packet) : Option String :=
  if ty.binary_op && subpackets.length != 2 then
    some "binary operator does not contain exactly two supackets"
  else if subpackets.isEmpty then
    some "operator has no supbackets"
  else none

/-- The length-type-0 `while parsed_bits < total_length` loop of
`Packet::parse_helper`, parameterized by the recursive sub-parser.  `fuel`
only bounds the iteration count so the model is total; the caller passes
`totalLength + 1`, which is enough because every successful sub-parse
reports at least one consumed bit. -/
def parseT0loop (sub : RState → Except String (Nat × Packet × RState)) :
    Nat → Nat → Nat → List Packet → RState → Except String (List Packet × RState)
  | 0, _, _, _, _ => .error "out of fuel"
  | fuel + 1, totalLength, parsedBits, acc, s =>
    if parsedBits < totalLength then
      match sub s with
      | .error e => .error e
      | .ok (parsed, p, s') =>
        parseT0loop sub fuel totalLength (parsedBits + parsed) (acc ++ [p]) s'
    else .ok (acc, s)

/-- The length-type-1 `for _ in 0..num_subpackets` loop of
`Packet::parse_helper`, parameterized by the recursive sub-parser. -/
def parseCntLoop (sub : RState → Except String (Nat × Packet × RState)) :
    Nat → List Packet → RState → Except String (List Packet × RState)
  | 0, acc, s => .ok (acc, s)
  | n + 1, acc, s =>
    match sub s with
    | .error e => .error e
    | .ok (_, p, s') => parseCntLoop sub n (acc ++ [p]) s'

/-- Model of `Packet::parse_helper`, made total with a fuel parameter that bounds
the recursion depth.  Fuel exhaustion is reported as the distinguished
error "out of fuel", which never occurs at the fuel chosen by
`Packet.parse_bits` (the recursion consumes at least one bit per level).
The `as u8` casts on `version` and `type_id` are the `% 256` reductions
(both values are below 8, so they are identities). -/
def parseHelperF : Nat → RState → Except String (Nat × Packet × RState)
  | 0, _ => .error "out of fuel"
  | fuel + 1, s =>
    let start := s.processed
    let rv := readAsNum 3 s
    let version := rv.1 % 256
    let rt := readAsNum 3 rv.2
    let typeId := rt.1 % 256
    if typeId = 4 then
      match parseLiteralGroups (rt.2.rest.length + 1) 0 rt.2 with
      | .error e => .error e
      | .ok (num, s3) => .ok (s3.processed - start, .literal version num, s3)
    else
      match rt.2.rest with
      | [] => .error "end of input reading length type"
      | lengthTypeId :: r =>
        let s3 : RState := ⟨r, rt.2.processed + 1⟩
        let subRes :=
          match lengthTypeId with
          | .L =>
            let rl := readAsNum 15 s3
            parseT0loop (parseHelperF fuel) (rl.1 + 1) rl.1 0 [] rl.2
          | .H =>
            let rn := readAsNum 11 s3
            parseCntLoop (parseHelperF fuel) rn.1 [] rn.2
        match subRes with
        | .error e => .error e
        | .ok (subpackets, s5) =>
          match OperatorType.from_type_id typeId with
          | none => .error "panic: unexpected type id"
          | some ty =>
            match validateOperator ty subpackets with
            | some e => .error e
            | none => .ok (s5.processed - start, .operator version ty subpackets, s5)

/-- Model of `Packet::parse_bits`: run the parser once from the start of the bit
sequence, discarding the consumed-bit count and any trailing bits. -/
def Packet.parse_bits (bits : List Bit) : Except String Packet :=
  match parseHelperF (bits.length + 1) ⟨bits, 0⟩ with
  | .error e => .error e
  | .ok (_, p, _) => .ok p

/-- The Unicode `White_Space` property, as used by Rust's `str::trim`
(via `char::is_whitespace`). -/
def rustIsWhitespace (c : Char) : Bool :=
  (0x9 ≤ c.toNat && c.toNat ≤ 0xD) || c.toNat == 0x20 || c.toNat == 0x85 ||
    c.toNat == 0xA0 || c.toNat == 0x1680 ||
    (0x2000 ≤ c.toNat && c.toNat ≤ 0x200A) || c.toNat == 0x2028 ||
    c.toNat == 0x2029 || c.toNat == 0x202F || c.toNat == 0x205F ||
    c.toNat == 0x3000

/-- Model of `str::trim`: remove whitespace from both ends. -/
def trim (input : List Char) : List Char :=
  ((input.dropWhile rustIsWhitespace).reverse.dropWhile rustIsWhitespace).reverse

/-- Model of `char::to_digit(16)`: the value of a hexadecimal digit,
case-insensitive; `none` for any other character.  Rust works on the code
point: decimal digits occupy code points 48 to 57, the lowercase letters
a to f occupy 97 to 102, and the uppercase letters A to F occupy
65 to 70. -/
def charToDigit16 (c : Char) : Option Nat :=
  if 48 ≤ c.toNat && c.toNat ≤ 57 then some (c.toNat - 48)
  else if 97 ≤ c.toNat && c.toNat ≤ 102 then some (c.toNat - 97 + 10)
  else if 65 ≤ c.toNat && c.toNat ≤ 70 then some (c.toNat - 65 + 10)
  else none

/-- Model of `.map(|c| Some(c.to_digit(16)? as u8)).collect::<Option<Vec<_>>>()`:
convert every character to its hex-digit value, failing on the first
invalid character (no partial result). -/
def collectDigits : List Char → Option (List Nat)
  | [] => some []
  | c :: cs =>
    match charToDigit16 c with
    | none => none
    | some d =>
      match collectDigits cs with
      | none => none
      | some ds => some (d :: ds)

/-- Model of `to_bits`: trim the input, convert every character to a hex-digit value
(failing on the first invalid character, producing no bits at all), then
expand each nibble into its four bits, most significant first. -/
def to_bits (input : List Char) : Option (List Bit) :=
  match collectDigits (trim input) with
  | none => none
  | some nibbles =>
    some (nibbles.flatMap fun nibble =>
      [Bit.fromNum nibble 3, Bit.fromNum nibble 2, Bit.fromNum nibble 1,
        Bit.fromNum nibble 0])

/-- Model of `Packet::parse`: decode the hex text and parse one packet. -/
def Packet.parse (input : List Char) : Except String Packet :=
  match to_bits input with
  | none => .error "invalid hex input"
  | some bits => Packet.parse_bits bits

/-- Version field of a packet. -/
def Packet.version : Packet → Nat
  | .literal v _ => v
  | .operator v _ _ => v

/-- Children of a packet: a literal has none. -/
def Packet.children : Packet → List Packet
  | .literal _ _ => []
  | .operator _ _ l => l

mutual

/-- Model of `Packet::version_sum`: own version plus the sum over all children.
All quantities are below 8 per packet, so the `u64` arithmetic never wraps
and `Nat` is faithful. -/
def Packet.version_sum : Packet → Nat
  | .literal v _ => v + 0
  | .operator v _ l => v + versionSumList l

/-- Model of `subpackets.iter().map(|x| x.version_sum()).sum()`. -/
def versionSumList : List Packet → Nat
  | [] => 0
  | p :: ps => Packet.version_sum p + versionSumList ps

end

mutual

/-- The value computed by `Packet::eval`, as a total function.  Where the
source would panic — `min`/`max` of an empty operator, or indexing child 0/1
of a binary operator with too few children — this total variant returns a
junk value (`0`); `Packet.evalChecked` models those panics precisely and
agrees with this function on every well-formed packet.  `Sum`/`Product`
fold with `u64` addition/multiplication, which wraps: folding modulo
`2 ^ 64` at every step equals reducing the full sum/product modulo `2 ^ 64`. -/
def Packet.eval : Packet → Nat
  | .literal _ value => value
  | .operator _ ty l =>
    let vs := evalList l
    match ty with
    | .sum => vs.sum % 2 ^ 64
    | .product => vs.prod % 2 ^ 64
    | .min => vs.min?.getD 0
    | .max => vs.max?.getD 0
    | .greaterThan =>
      match vs with
      | v0 :: v1 :: _ => if v1 < v0 then 1 else 0
      | _ => 0
    | .lessThan =>
      match vs with
      | v0 :: v1 :: _ => if v0 < v1 then 1 else 0
      | _ => 0
    | .equal =>
      match vs with
      | v0 :: v1 :: _ => if v0 = v1 then 1 else 0
      | _ => 0

/-- Evaluate every child. -/
def evalList : List Packet → List Nat
  | [] => []
  | p :: ps => Packet.eval p :: evalList ps

end

mutual

/-- Model of `Packet::eval` with the source's partiality made explicit: `none`
models the panics (`.min().unwrap()` / `.max().unwrap()` on an empty
operator, and the `subpackets[0]` / `subpackets[1]` index accesses of the
comparison operators when fewer than two children exist).  For the
comparison operators only the first two children are evaluated, matching
the source, where the lazy `ops` iterator is not consumed in those arms. -/
def Packet.evalChecked : Packet → Option Nat
  | .literal _ value => some value
  | .operator _ ty l =>
    match ty with
    | .sum => (evalCheckedList l).map (fun vs => vs.sum % 2 ^ 64)
    | .product => (evalCheckedList l).map (fun vs => vs.prod % 2 ^ 64)
    | .min => (evalCheckedList l).bind List.min?
    | .max => (evalCheckedList l).bind List.max?
    | .greaterThan =>
      match l with
      | p0 :: p1 :: _ =>
        (Packet.evalChecked p0).bind fun v0 =>
          (Packet.evalChecked p1).map fun v1 => if v1 < v0 then 1 else 0
      | _ => none
    | .lessThan =>
      match l with
      | p0 :: p1 :: _ =>
        (Packet.evalChecked p0).bind fun v0 =>
          (Packet.evalChecked p1).map fun v1 => if v0 < v1 then 1 else 0
      | _ => none
    | .equal =>
      match l with
      | p0 :: p1 :: _ =>
        (Packet.evalChecked p0).bind fun v0 =>
          (Packet.evalChecked p1).map fun v1 => if v0 = v1 then 1 else 0
      | _ => none

/-- Evaluate every child, `none` if any evaluation panics. -/
def evalCheckedList : List Packet → Option (List Nat)
  | [] => some []
  | p :: ps =>
    (Packet.evalChecked p).bind fun v =>
      (evalCheckedList ps).map fun vs => v :: vs

end

mutual

/-- Well-formedness guaranteed by the parser: every operator node has at
least one child, binary operators have exactly two, recursively. -/
def Packet.wf : Packet → Bool
  | .literal _ _ => true
  | .operator _ ty l =>
    (!ty.binary_op || l.length == 2) && !l.isEmpty && wfList l

/-- All packets in the list are well-formed. -/
def wfList : List Packet → Bool
  | [] => true
  | p :: ps => Packet.wf p && wfList ps

end

/-- Width-`w` big-endian binary encoding of `v % 2 ^ w` (most significant
bit first): the inverse of a `w`-bit fixed-width read. -/
def natBits : Nat → Nat → List Bit
  | 0, _ => []
  | w + 1, v => Bit.fromNum v w :: natBits w v

/-- Continuation-chained 5-bit groups encoding the given nibble sequence:
every group but the last is prefixed with a high continuation bit, the
last with a low one. -/
def encodeGroups : List Nat → List Bit
  | [] => []
  | [n] => Bit.L :: natBits 4 n
  | n :: rest => Bit.H :: (natBits 4 n ++ encodeGroups rest)

/-- The full encoding of a literal packet: 3-bit version, type id `4`,
then the continuation-chained nibble groups. -/
def encodeLiteral (version : Nat) (nibbles : List Nat) : List Bit :=
  natBits 3 version ++ natBits 3 4 ++ encodeGroups nibbles

/-- The integer encoded by a nibble sequence, most significant nibble
first (exact, no 64-bit truncation). -/
def nibblesVal (nibbles : List Nat) : Nat :=
  nibbles.foldl (fun a n => a * 16 + n) 0

/-- Folding step of `Bit::as_num`: shift left one bit and add. -/
def asNumStep (a : Nat) (b : Bit) : Nat := a * 2 + b.toNat

/-- One step of the literal accumulator, with the `u64` wrap. -/
def litStep (a n : Nat) : Nat := (a * 16 + n) % 2 ^ 64

/-- Relation between the reader state at the start and at the end of any
sequence of reads: the stream only shrinks, `processed` grows by at least
the number of bits removed from the stream, and by exactly that number as
long as the stream has not been exhausted (a `next()` call after
exhaustion still increments `processed`). -/
def Consumes (s s' : RState) : Prop :=
  s'.rest.length ≤ s.rest.length ∧
    s.processed + (s.rest.length - s'.rest.length) ≤ s'.processed ∧
    (0 < s'.rest.length →
      s'.processed = s.processed + (s.rest.length - s'.rest.length))

/-- A case-insensitive hexadecimal digit: a decimal digit (code points
48 to 57) or one of the letters a to f, lowercase (97 to 102) or
uppercase (65 to 70). -/
def isHexDigit (c : Char) : Bool :=
  (48 ≤ c.toNat && c.toNat ≤ 57) || (97 ≤ c.toNat && c.toNat ≤ 102) ||
    (65 ≤ c.toNat && c.toNat ≤ 70)

/-- The value of a hexadecimal digit (junk `0` for non-digits). -/
def hexVal (c : Char) : Nat := (charToDigit16 c).getD 0

/-- Truncated 7-bit input: version `110`, type id `100` (literal), one
continuation bit `0`, and then no bits at all for the 4-bit nibble. -/
def bits7 : List Bit := [.H, .H, .L, .H, .L, .L, .L]

/-- A length-type-0 operator (Sum) declaring `total_length = 5` whose
single sub-packet is an 11-bit literal: the sub-packet overruns the
declared boundary. -/
def bits33 : List Bit := [.L, .L, .L, .L, .L, .L, .L] ++ natBits 15 5 ++ encodeLiteral 0 [1]

/-- A GreaterThan operator (type id 5) in count framing with zero
sub-packets. -/
def bitsGT0 : List Bit := natBits 3 0 ++ natBits 3 5 ++ [.H] ++ natBits 11 0

/-- A GreaterThan operator (type id 5) in count framing with exactly one
sub-packet. -/
def bitsGT1 : List Bit := natBits 3 0 ++ natBits 3 5 ++ [.H] ++ natBits 11 1 ++ encodeLiteral 0 [1]

/-- A Sum operator (type id 0) in count framing with zero sub-packets. -/
def bitsSum0 : List Bit := natBits 3 0 ++ natBits 3 0 ++ [.H] ++ natBits 11 0

/-- A Sum operator whose two literal children hold `2 ^ 64 - 1` and `1`:
their `u64` sum wraps to `0`. -/
def bits115 : List Bit :=
  natBits 3 0 ++ natBits 3 0 ++ [.H] ++ natBits 11 2 ++
    encodeLiteral 0 (List.replicate 16 15) ++ encodeLiteral 0 [1]



theorem readAsNumAux_short (n : Nat) :
    ∀ acc s, s.rest.length < n →
      readAsNumAux n acc s =
        (s.rest.foldl asNumStep acc, ⟨[], s.processed + s.rest.length + 1⟩) := by
  induction n with
  | zero => intro acc s h; omega
  | succ n ih =>
    intro acc s h
    match hs : s.rest with
    | [] => simp [readAsNumAux, hs]
    | b :: r =>
      rw [hs] at h
      simp only [List.length_cons] at h
      have := ih (asNumStep acc b) ⟨r, s.processed + 1⟩ (by simpa using Nat.lt_of_succ_lt_succ h)
      simp only [readAsNumAux, hs, asNumStep] at this ⊢
      rw [this]
      simp [hs, List.foldl_cons, asNumStep]
      omega

theorem readAsNumAux_append (bs : List Bit) :
    ∀ acc rest p, readAsNumAux bs.length acc ⟨bs ++ rest, p⟩ =
      (bs.foldl asNumStep acc, ⟨rest, p + bs.length⟩) := by
  induction bs with
  | nil => intro acc rest p; simp [readAsNumAux]
  | cons b bs ih =>
    intro acc rest p
    simp only [List.length_cons, List.cons_append, readAsNumAux]
    rw [ih]
    simp [asNumStep]
    omega

theorem natBits_length (w v : Nat) : (natBits w v).length = w := by
  induction w generalizing v with
  | zero => rfl
  | succ w ih => simp [natBits, ih]

theorem Bit_fromNum_toNat (v w : Nat) : (Bit.fromNum v w).toNat = v / 2 ^ w % 2 := by
  have h2 : v &&& 2 ^ w = (v.testBit w).toNat * 2 ^ w := Nat.and_two_pow v w
  have ht : v.testBit w = decide (v / 2 ^ w % 2 = 1) := Nat.testBit_to_div_mod
  have hpw : (2 : Nat) ^ w ≠ 0 := Nat.pos_iff_ne_zero.mp (Nat.pos_pow_of_pos w (by norm_num))
  rw [Bit.fromNum, Nat.one_shiftLeft, h2, ht]
  rcases Nat.mod_two_eq_zero_or_one (v / 2 ^ w) with h | h <;>
    simp [h, Bit.toNat, hpw]

theorem foldl_natBits (w : Nat) :
    ∀ v acc, (natBits w v).foldl asNumStep acc = acc * 2 ^ w + v % 2 ^ w := by
  induction w with
  | zero => intro v acc; simp [natBits, Nat.mod_one]
  | succ w ih =>
    intro v acc
    simp only [natBits, List.foldl_cons]
    rw [ih, asNumStep, Bit_fromNum_toNat]
    have : v % 2 ^ (w + 1) = v % 2 ^ w + 2 ^ w * (v / 2 ^ w % 2) := by
      rw [pow_succ, Nat.mod_mul]
    rw [this, pow_succ]
    ring

theorem readAsNum_natBits (w v : Nat) (rest : List Bit) (p : Nat) :
    readAsNum w ⟨natBits w v ++ rest, p⟩ = (v % 2 ^ w, ⟨rest, p + w⟩) := by
  have h := readAsNumAux_append (natBits w v) 0 rest p
  rw [natBits_length] at h
  rw [readAsNum, h, foldl_natBits]
  simp


theorem parseLiteralGroups_encode (nibs : List Nat) :
    ∀ num rest p fuel, nibs ≠ [] → (∀ n ∈ nibs, n < 16) → nibs.length ≤ fuel →
      parseLiteralGroups fuel num ⟨encodeGroups nibs ++ rest, p⟩ =
        .ok (nibs.foldl litStep num, ⟨rest, p + 5 * nibs.length⟩) := by
  induction nibs with
  | nil => intro num rest p fuel h; exact absurd rfl h
  | cons n t ih =>
    intro num rest p fuel _ hlt hfuel
    have hn : n < 16 := hlt n (by simp)
    have hn4 : n % 2 ^ 4 = n := by
      have h16 : (2 : Nat) ^ 4 = 16 := by norm_num
      rw [h16]; exact Nat.mod_eq_of_lt hn
    match fuel, hfuel with
    | f + 1, _ =>
      match t with
      | [] =>
        have h4 := readAsNum_natBits 4 n rest (p + 1)
        simp only [encodeGroups, List.cons_append, List.nil_append, parseLiteralGroups, h4,
          hn4, if_pos rfl]
        simp [litStep]
        try omega
      | m :: t' =>
        have h4 := readAsNum_natBits 4 n (encodeGroups (m :: t') ++ rest) (p + 1)
        have hne : (Bit.H = Bit.L) = False := by simp
        simp only [encodeGroups, List.cons_append, List.append_assoc, parseLiteralGroups, h4,
          hn4, hne, if_false]
        have := ih (litStep num n) rest (p + 1 + 4) f (by simp)
          (fun x hx => hlt x (by simp [hx]))
          (by simp only [List.length_cons] at *; omega)
        simp only [litStep] at this ⊢
        rw [this]
        simp only [List.foldl_cons, litStep, List.length_cons]
        have harith : p + 1 + 4 + 5 * (t'.length + 1) = p + 5 * (t'.length + 1 + 1) := by ring
        rw [harith]

theorem foldl_litStep (nibs : List Nat) :
    ∀ num, nibs.foldl litStep (num % 2 ^ 64) =
      (nibs.foldl (fun a n => a * 16 + n) num) % 2 ^ 64 := by
  induction nibs with
  | nil => intro num; simp
  | cons n t ih =>
    intro num
    have h1 : num % 2 ^ 64 * 16 % 2 ^ 64 = num * 16 % 2 ^ 64 := Nat.mod_mul_mod
    have h2 : (num % 2 ^ 64 * 16 + n) % 2 ^ 64 = (num * 16 + n) % 2 ^ 64 := by
      rw [Nat.add_mod, h1, ← Nat.add_mod]
    simp only [List.foldl_cons, litStep, h2]
    exact ih (num * 16 + n)

theorem encodeGroups_length (nibs : List Nat) :
    (encodeGroups nibs).length = 5 * nibs.length := by
  induction nibs with
  | nil => rfl
  | cons n t ih =>
    match t with
    | [] => simp [encodeGroups, natBits_length]
    | m :: t' =>
      simp only [encodeGroups, List.length_cons, List.length_append, natBits_length] at ih ⊢
      omega

/-- Round trip for literal packets: parsing the continuation-chained
encoding of a nibble sequence yields a literal packet holding the encoded
integer reduced modulo `2 ^ 64`, and reports exactly its `6 + 5 * k`
bits as consumed. -/
theorem parseHelperF_encodeLiteral (v : Nat) (nibs : List Nat) (rest : List Bit)
    (p fuel : Nat) (hv : v < 8) (hne : nibs ≠ []) (hlt : ∀ n ∈ nibs, n < 16) :
    parseHelperF (fuel + 1) ⟨encodeLiteral v nibs ++ rest, p⟩ =
      .ok (6 + 5 * nibs.length, .literal v (nibblesVal nibs % 2 ^ 64),
        ⟨rest, p + (6 + 5 * nibs.length)⟩) := by
  have hEG : (encodeGroups nibs).length = 5 * nibs.length := encodeGroups_length nibs
  have hA : encodeLiteral v nibs ++ rest =
      natBits 3 v ++ (natBits 3 4 ++ (encodeGroups nibs ++ rest)) := by
    simp [encodeLiteral, List.append_assoc]
  have h3 := readAsNum_natBits 3 v (natBits 3 4 ++ (encodeGroups nibs ++ rest)) p
  have h4 := readAsNum_natBits 3 4 (encodeGroups nibs ++ rest) (p + 3)
  have hvv : v % 2 ^ 3 % 256 = v := by
    have h8 : (2 : Nat) ^ 3 = 8 := by norm_num
    rw [h8, Nat.mod_eq_of_lt hv]
    exact Nat.mod_eq_of_lt (by omega)
  have hty : (4 : Nat) % 2 ^ 3 % 256 = 4 := by norm_num
  have hlit := parseLiteralGroups_encode nibs 0 rest (p + 3 + 3)
      ((encodeGroups nibs ++ rest).length + 1) hne hlt
      (by simp only [List.length_append, hEG]; omega)
  have h0 : nibs.foldl litStep 0 = nibblesVal nibs % 2 ^ 64 := by
    have := foldl_litStep nibs 0
    simpa [nibblesVal] using this
  rw [hA]
  simp only [parseHelperF, h3, h4, hvv, hty, if_pos rfl, hlit, h0]
  have e1 : p + 3 + 3 + 5 * nibs.length - p = 6 + 5 * nibs.length := by omega
  have e2 : p + 3 + 3 + 5 * nibs.length = p + (6 + 5 * nibs.length) := by omega
  rw [e1, e2]
  simp

theorem parse_bits_encodeLiteral (v : Nat) (nibs : List Nat)
    (hv : v < 8) (hne : nibs ≠ []) (hlt : ∀ n ∈ nibs, n < 16) :
    Packet.parse_bits (encodeLiteral v nibs) =
      .ok (.literal v (nibblesVal nibs % 2 ^ 64)) := by
  have h := parseHelperF_encodeLiteral v nibs [] 0 (encodeLiteral v nibs).length hv hne hlt
  rw [List.append_nil] at h
  simp [Packet.parse_bits, h]

theorem Consumes.refl (s : RState) : Consumes s s := by
  refine ⟨le_refl _, ?_, ?_⟩ <;> simp

theorem Consumes.trans {s t u : RState} (h1 : Consumes s t) (h2 : Consumes t u) :
    Consumes s u := by
  obtain ⟨a1, b1, c1⟩ := h1
  obtain ⟨a2, b2, c2⟩ := h2
  refine ⟨le_trans a2 a1, by omega, ?_⟩
  intro hu
  have ht : 0 < t.rest.length := lt_of_lt_of_le hu a2
  have := c1 ht
  have := c2 hu
  omega

theorem readAsNumAux_consumes (n : Nat) :
    ∀ acc s, Consumes s (readAsNumAux n acc s).2 := by
  induction n with
  | zero => intro acc s; exact Consumes.refl s
  | succ n ih =>
    intro acc s
    match hs : s.rest with
    | [] =>
      simp only [readAsNumAux, hs]
      exact ⟨by simp [hs], by simp [hs], by simp⟩
    | b :: r =>
      simp only [readAsNumAux, hs]
      refine Consumes.trans (t := ⟨r, s.processed + 1⟩) ?_ (ih _ _)
      exact ⟨by simp [hs], by simp [hs], by simp [hs]⟩

theorem parseLiteralGroups_consumes (fuel : Nat) :
    ∀ num s r, parseLiteralGroups fuel num s = .ok r → Consumes s r.2 := by
  induction fuel with
  | zero => intro num s r h; simp [parseLiteralGroups] at h
  | succ fuel ih =>
    intro num s r h
    match hs : s.rest with
    | [] => simp [parseLiteralGroups, hs] at h
    | b :: r' =>
      simp only [parseLiteralGroups, hs] at h
      have hstep : Consumes s ⟨r', s.processed + 1⟩ :=
        ⟨by simp [hs], by simp [hs], by simp [hs]⟩
      have hread := readAsNumAux_consumes 4 0 ⟨r', s.processed + 1⟩
      split at h
      · cases h
        exact Consumes.trans hstep hread
      · exact Consumes.trans hstep (Consumes.trans hread (ih _ _ _ h))

theorem readAsNum_consumes (n : Nat) (s : RState) : Consumes s (readAsNum n s).2 :=
  readAsNumAux_consumes n 0 s

theorem parseT0loop_consumes (sub : RState → Except String (Nat × Packet × RState))
    (hsub : ∀ s r, sub s = .ok r → Consumes s r.2.2) (fuel : Nat) :
    ∀ total parsed acc s l s',
      parseT0loop sub fuel total parsed acc s = .ok (l, s') → Consumes s s' := by
  induction fuel with
  | zero => intro total parsed acc s l s' h; simp [parseT0loop] at h
  | succ fuel ih =>
    intro total parsed acc s l s' h
    simp only [parseT0loop] at h
    split at h
    · split at h
      · simp at h
      · rename_i r heq
        exact Consumes.trans (hsub _ _ heq) (ih _ _ _ _ _ _ h)
    · cases h
      exact Consumes.refl s

theorem parseCntLoop_consumes (sub : RState → Except String (Nat × Packet × RState))
    (hsub : ∀ s r, sub s = .ok r → Consumes s r.2.2) (n : Nat) :
    ∀ acc s l s', parseCntLoop sub n acc s = .ok (l, s') → Consumes s s' := by
  induction n with
  | zero =>
    intro acc s l s' h
    simp only [parseCntLoop] at h
    cases h
    exact Consumes.refl s
  | succ n ih =>
    intro acc s l s' h
    simp only [parseCntLoop] at h
    split at h
    · simp at h
    · rename_i r heq
      exact Consumes.trans (hsub _ _ heq) (ih _ _ _ _ h)

theorem parseHelperF_consumes (fuel : Nat) :
    ∀ s r, parseHelperF fuel s = .ok r →
      Consumes s r.2.2 ∧ r.1 = r.2.2.processed - s.processed := by
  induction fuel with
  | zero => intro s r h; simp [parseHelperF] at h
  | succ fuel ih =>
    intro s r h
    have hsub : ∀ t u, parseHelperF fuel t = .ok u → Consumes t u.2.2 :=
      fun t u ht => (ih t u ht).1
    have c2 : Consumes s (readAsNum 3 (readAsNum 3 s).2).2 :=
      (readAsNum_consumes 3 s).trans (readAsNum_consumes 3 _)
    simp only [parseHelperF] at h
    split at h
    · -- literal branch
      split at h
      · simp at h
      · rename_i num s3 heq
        cases h
        exact ⟨c2.trans (parseLiteralGroups_consumes _ _ _ _ heq), rfl⟩
    · -- operator branch
      split at h
      · simp at h
      · rename_i lengthTypeId rr hrest
        have crr : Consumes s ⟨rr, (readAsNum 3 (readAsNum 3 s).2).2.processed + 1⟩ := by
          refine c2.trans ?_
          refine ⟨?_, ?_, ?_⟩ <;> simp [hrest]
        split at h
        · simp at h
        · rename_i subpackets s5 hsubres
          have c5 : Consumes s s5 := by
            rcases hlt : lengthTypeId with _ | _
            · rw [hlt] at hsubres
              simp only at hsubres
              refine crr.trans ((readAsNum_consumes 15 _).trans ?_)
              exact parseT0loop_consumes _ hsub _ _ _ _ _ _ _ hsubres
            · rw [hlt] at hsubres
              simp only at hsubres
              refine crr.trans ((readAsNum_consumes 11 _).trans ?_)
              exact parseCntLoop_consumes _ hsub _ _ _ _ _ hsubres
          split at h
          · simp at h
          · split at h
            · simp at h
            · cases h
              exact ⟨c5, rfl⟩

theorem wfList_append (l : List Packet) (p : Packet) :
    wfList (l ++ [p]) = (wfList l && Packet.wf p) := by
  induction l with
  | nil => simp [wfList]
  | cons q t ih => simp [wfList, ih, Bool.and_assoc]

theorem parseT0loop_wf (sub : RState → Except String (Nat × Packet × RState))
    (hsub : ∀ s r, sub s = .ok r → Packet.wf r.2.1 = true) (fuel : Nat) :
    ∀ total parsed acc s l s',
      parseT0loop sub fuel total parsed acc s = .ok (l, s') →
      wfList acc = true → wfList l = true := by
  induction fuel with
  | zero => intro total parsed acc s l s' h; simp [parseT0loop] at h
  | succ fuel ih =>
    intro total parsed acc s l s' h hacc
    simp only [parseT0loop] at h
    split at h
    · split at h
      · simp at h
      · rename_i r heq
        refine ih _ _ _ _ _ _ h ?_
        rw [wfList_append, hacc, hsub _ _ heq]
        rfl
    · cases h
      exact hacc

theorem parseCntLoop_wf (sub : RState → Except String (Nat × Packet × RState))
    (hsub : ∀ s r, sub s = .ok r → Packet.wf r.2.1 = true) (n : Nat) :
    ∀ acc s l s', parseCntLoop sub n acc s = .ok (l, s') →
      wfList acc = true → wfList l = true := by
  induction n with
  | zero =>
    intro acc s l s' h hacc
    simp only [parseCntLoop] at h
    cases h
    exact hacc
  | succ n ih =>
    intro acc s l s' h hacc
    simp only [parseCntLoop] at h
    split at h
    · simp at h
    · rename_i r heq
      refine ih _ _ _ _ h ?_
      rw [wfList_append, hacc, hsub _ _ heq]
      rfl

theorem parseHelperF_wf (fuel : Nat) :
    ∀ s r, parseHelperF fuel s = .ok r → Packet.wf r.2.1 = true := by
  induction fuel with
  | zero => intro s r h; simp [parseHelperF] at h
  | succ fuel ih =>
    intro s r h
    have hsub : ∀ t u, parseHelperF fuel t = .ok u → Packet.wf u.2.1 = true :=
      fun t u ht => ih t u ht
    simp only [parseHelperF] at h
    split at h
    · split at h
      · simp at h
      · cases h
        rfl
    · split at h
      · simp at h
      · rename_i lengthTypeId rr hrest
        split at h
        · simp at h
        · rename_i subpackets s5 hsubres
          have hwfl : wfList subpackets = true := by
            rcases hlt : lengthTypeId with _ | _ <;> rw [hlt] at hsubres <;>
              simp only at hsubres
            · exact parseT0loop_wf _ hsub _ _ _ _ _ _ _ hsubres rfl
            · exact parseCntLoop_wf _ hsub _ _ _ _ _ hsubres rfl
          split at h
          · simp at h
          · rename_i ty hty
            split at h
            · simp at h
            · rename_i hval
              cases h
              simp only [validateOperator] at hval
              split at hval
              · simp at hval
              · split at hval
                · simp at hval
                · rename_i hnotbin hnotempty
                  simp only [Packet.wf, hwfl, Bool.and_true]
                  rw [Bool.and_eq_true]
                  constructor
                  · cases hb : ty.binary_op with
                    | false => simp
                    | true =>
                      have hlen : (subpackets.length != 2) = false := by
                        cases hx : (subpackets.length != 2) with
                        | false => rfl
                        | true =>
                          exact absurd
                            (show (ty.binary_op && subpackets.length != 2) = true by
                              simp [hb, hx]) hnotbin
                      have hbeq : (subpackets.length == 2) = true := by
                        simpa using hlen
                      simp [hbeq]
                  · cases he : subpackets.isEmpty with
                    | false => rfl
                    | true => exact absurd (by simp [he]) hnotempty

theorem evalCheckedList_cons_inv {p : Packet} {ps : List Packet} {vs : List Nat}
    (h : evalCheckedList (p :: ps) = some vs) :
    ∃ v vs', Packet.evalChecked p = some v ∧ evalCheckedList ps = some vs' ∧
      vs = v :: vs' := by
  simp only [evalCheckedList] at h
  cases hc : Packet.evalChecked p with
  | none => rw [hc] at h; simp at h
  | some v =>
    rw [hc] at h
    cases hcs : evalCheckedList ps with
    | none => rw [hcs] at h; simp at h
    | some vs' =>
      rw [hcs] at h
      simp at h
      exact ⟨v, vs', rfl, rfl, h.symm⟩

mutual

theorem wf_evalChecked (p : Packet) (h : Packet.wf p = true) :
    Packet.evalChecked p = some (Packet.eval p) := by
  match p with
  | .literal v value => rfl
  | .operator v ty l =>
    simp only [Packet.wf, Bool.and_eq_true] at h
    obtain ⟨⟨hbin, hne⟩, hwfl⟩ := h
    have hl : evalCheckedList l = some (evalList l) := wfList_evalCheckedList l hwfl
    have hlne : l ≠ [] := by
      cases l with
      | nil => simp at hne
      | cons a t => simp
    cases ty with
    | sum => simp [Packet.evalChecked, Packet.eval, hl]
    | product => simp [Packet.evalChecked, Packet.eval, hl]
    | min =>
      obtain ⟨p0, t, rfl⟩ : ∃ p0 t, l = p0 :: t := by
        cases l with
        | nil => exact absurd rfl hlne
        | cons a t => exact ⟨a, t, rfl⟩
      simp [Packet.evalChecked, Packet.eval, hl, evalList, List.min?]
    | max =>
      obtain ⟨p0, t, rfl⟩ : ∃ p0 t, l = p0 :: t := by
        cases l with
        | nil => exact absurd rfl hlne
        | cons a t => exact ⟨a, t, rfl⟩
      simp [Packet.evalChecked, Packet.eval, hl, evalList, List.max?]
    | greaterThan =>
      have hlen2 : l.length = 2 := by simpa [OperatorType.binary_op] using hbin
      match l, hlen2 with
      | [p0, p1], _ =>
        obtain ⟨v0, vs1, hc0, hrest, hveq⟩ := evalCheckedList_cons_inv hl
        obtain ⟨v1, vs2, hc1, _, hveq2⟩ := evalCheckedList_cons_inv hrest
        simp only [evalList, List.cons.injEq] at hveq
        obtain ⟨hv0, hveq'⟩ := hveq
        rw [hveq2, List.cons.injEq] at hveq'
        obtain ⟨hv1, _⟩ := hveq'
        simp [Packet.evalChecked, Packet.eval, evalList, hc0, hc1, ← hv0, ← hv1]
    | lessThan =>
      have hlen2 : l.length = 2 := by simpa [OperatorType.binary_op] using hbin
      match l, hlen2 with
      | [p0, p1], _ =>
        obtain ⟨v0, vs1, hc0, hrest, hveq⟩ := evalCheckedList_cons_inv hl
        obtain ⟨v1, vs2, hc1, _, hveq2⟩ := evalCheckedList_cons_inv hrest
        simp only [evalList, List.cons.injEq] at hveq
        obtain ⟨hv0, hveq'⟩ := hveq
        rw [hveq2, List.cons.injEq] at hveq'
        obtain ⟨hv1, _⟩ := hveq'
        simp [Packet.evalChecked, Packet.eval, evalList, hc0, hc1, ← hv0, ← hv1]
    | equal =>
      have hlen2 : l.length = 2 := by simpa [OperatorType.binary_op] using hbin
      match l, hlen2 with
      | [p0, p1], _ =>
        obtain ⟨v0, vs1, hc0, hrest, hveq⟩ := evalCheckedList_cons_inv hl
        obtain ⟨v1, vs2, hc1, _, hveq2⟩ := evalCheckedList_cons_inv hrest
        simp only [evalList, List.cons.injEq] at hveq
        obtain ⟨hv0, hveq'⟩ := hveq
        rw [hveq2, List.cons.injEq] at hveq'
        obtain ⟨hv1, _⟩ := hveq'
        simp [Packet.evalChecked, Packet.eval, evalList, hc0, hc1, ← hv0, ← hv1]

theorem wfList_evalCheckedList (l : List Packet) (h : wfList l = true) :
    evalCheckedList l = some (evalList l) := by
  match l with
  | [] => rfl
  | p :: ps =>
    simp only [wfList, Bool.and_eq_true] at h
    obtain ⟨hp, hps⟩ := h
    simp [evalCheckedList, evalList, wf_evalChecked p hp,
      wfList_evalCheckedList ps hps]

end

theorem parseT0loop_stop (sub : RState → Except String (Nat × Packet × RState))
    (fuel total parsed : Nat) (acc : List Packet) (s : RState)
    (h : total ≤ parsed) :
    parseT0loop sub (fuel + 1) total parsed acc s = .ok (acc, s) := by
  simp [parseT0loop, Nat.not_lt_of_le h]

theorem parseT0loop_error_source (sub : RState → Except String (Nat × Packet × RState))
    (fuel : Nat) :
    ∀ total parsed acc s e, parseT0loop sub fuel total parsed acc s = .error e →
      e = "out of fuel" ∨ ∃ s₁, sub s₁ = .error e := by
  induction fuel with
  | zero =>
    intro total parsed acc s e h
    simp only [parseT0loop] at h
    cases h
    exact Or.inl rfl
  | succ fuel ih =>
    intro total parsed acc s e h
    simp only [parseT0loop] at h
    split at h
    · split at h
      · rename_i heq
        cases h
        exact Or.inr ⟨s, heq⟩
      · exact ih _ _ _ _ _ h
    · simp at h

theorem versionSumList_eq (l : List Packet) :
    versionSumList l = (l.map Packet.version_sum).sum := by
  induction l with
  | nil => rfl
  | cons p ps ih => simp [versionSumList, ih]

theorem evalList_eq (l : List Packet) : evalList l = l.map Packet.eval := by
  induction l with
  | nil => rfl
  | cons p ps ih => simp [evalList, ih]

theorem charToDigit16_isSome (c : Char) :
    (charToDigit16 c).isSome = isHexDigit c := by
  simp only [charToDigit16, isHexDigit]
  split_ifs <;> simp_all

theorem charToDigit16_eq_some (c : Char) (h : isHexDigit c = true) :
    charToDigit16 c = some (hexVal c) := by
  have := charToDigit16_isSome c
  rw [h] at this
  cases hc : charToDigit16 c with
  | none => rw [hc] at this; simp at this
  | some v => simp [hexVal, hc]

theorem charToDigit16_eq_none (c : Char) (h : isHexDigit c = false) :
    charToDigit16 c = none := by
  have := charToDigit16_isSome c
  rw [h] at this
  cases hc : charToDigit16 c with
  | none => rfl
  | some v => rw [hc] at this; simp at this

theorem collectDigits_all (cs : List Char) (h : ∀ c ∈ cs, isHexDigit c = true) :
    collectDigits cs = some (cs.map hexVal) := by
  induction cs with
  | nil => rfl
  | cons a t ih =>
    have ha := charToDigit16_eq_some a (h a (by simp))
    have ht := ih (fun c hc => h c (by simp [hc]))
    simp [collectDigits, ha, ht]

theorem collectDigits_none (cs : List Char) (c : Char) (hc : c ∈ cs)
    (h : isHexDigit c = false) : collectDigits cs = none := by
  induction cs with
  | nil => simp at hc
  | cons a t ih =>
    rcases List.mem_cons.mp hc with rfl | hmem
    · simp [collectDigits, charToDigit16_eq_none c h]
    · cases ha : charToDigit16 a <;> simp [collectDigits, ha, ih hmem]

/-- Claim C1, counterexample.  A 7-bit stream ends in the middle of the
4-bit nibble group of a literal (0 of 4 bits remain), yet parsing
succeeds and returns a packet built from the short read — the claim says
every short fixed-width read must fail with an end-of-input error. -/
theorem c1_counterexample :
    Packet.parse_bits bits7 = .ok (.literal 6 0) ∧ bits7.length = 7 :=
  ⟨rfl, rfl⟩

/-- Claim C1, amended.  Fixed-width N-bit reads (version, type id, length
fields, nibble groups) do not check that N bits remain: `as_num` over
`take N` silently accumulates only the bits still present, treating the
missing ones as absent, and parsing can succeed with a packet built from a
short read.  Only the single-bit reads fail at end of input: the literal
continuation bit with "end of input reading literal" and the operator
length-type bit with "end of input reading length type". -/
theorem c1_short_reads :
    (∀ n acc s, s.rest.length < n →
      readAsNumAux n acc s =
        (s.rest.foldl asNumStep acc, ⟨[], s.processed + s.rest.length + 1⟩)) ∧
    (∀ f, parseHelperF (f + 1) ⟨[], 0⟩ = .error "end of input reading length type") ∧
    Packet.parse_bits [.L, .L, .L, .H, .L, .L] = .error "end of input reading literal" ∧
    Packet.parse_bits bits7 = .ok (.literal 6 0) := by
  refine ⟨readAsNumAux_short, ?_, rfl, rfl⟩
  intro f
  simp [parseHelperF, readAsNum, readAsNumAux]

/-- Claim C1, witness for the amended theorem at a concrete short read:
one bit remains where four are requested. -/
theorem c1_witness :
    ([Bit.H] : List Bit).length < 4 ∧
      readAsNumAux 4 0 ⟨[Bit.H], 5⟩ = (1, ⟨[], 7⟩) :=
  ⟨by decide, by simpa using c1_short_reads.1 4 0 ⟨[Bit.H], 5⟩ (by decide)⟩

/-- Claim C2, counterexample.  The operator of `bits33` declares a total
sub-packet length of 5 bits, but its single sub-packet consumes 11 bits —
a strict overrun.  The claim says this must fail with a framing error;
instead parsing succeeds. -/
theorem c2_counterexample :
    Packet.parse_bits bits33 = .ok (.operator 0 .sum [.literal 0 1]) ∧
      parseHelperF 12 ⟨encodeLiteral 0 [1], 0⟩ = .ok (11, .literal 0 1, ⟨[], 11⟩) ∧
      bits33 = [Bit.L, Bit.L, Bit.L, Bit.L, Bit.L, Bit.L, Bit.L] ++
        natBits 15 5 ++ encodeLiteral 0 [1] ∧
      (5 : Nat) < 11 :=
  ⟨rfl, rfl, rfl, by norm_num⟩

/-- Claim C2, amended.  The length-type-0 loop runs while the accumulated
count is strictly below `total_length` and stops as soon as it is greater
than or equal — a strict overrun is accepted silently with the packets
collected so far; the loop itself never produces any error of its own
(every error it returns comes from a sub-parse, or is the fuel marker of
the model). -/
theorem c2_overrun_accepted :
    (∀ sub f total parsed acc s, total ≤ parsed →
      parseT0loop sub (f + 1) total parsed acc s = .ok (acc, s)) ∧
    (∀ sub f total parsed acc s e, parseT0loop sub f total parsed acc s = .error e →
      e = "out of fuel" ∨ ∃ s₁, sub s₁ = .error e) ∧
    Packet.parse_bits bits33 = .ok (.operator 0 .sum [.literal 0 1]) :=
  ⟨fun sub f total parsed acc s h => parseT0loop_stop sub f total parsed acc s h,
    fun sub f total parsed acc s e h => parseT0loop_error_source sub f total parsed acc s e h,
    rfl⟩

/-- Claim C2, witness for the amended theorem: a loop entered with the
accumulated count already beyond the declared total returns at once. -/
theorem c2_witness :
    (3 : Nat) ≤ 5 ∧
      parseT0loop (fun _ => .error "unused") 1 3 5 [] ⟨[], 0⟩ = .ok ([], ⟨[], 0⟩) :=
  ⟨by norm_num, c2_overrun_accepted.1 (fun _ => .error "unused") 0 3 5 [] ⟨[], 0⟩ (by norm_num)⟩

/-- Claim C3, counterexample.  On the truncated input `bits7` the parser
returns successfully reporting 8 consumed bits, yet the whole stream only
contains 7 bits: `processed` was incremented by the `next()` call that
found the stream exhausted, so the reported count exceeds the bits
actually consumed. -/
theorem c3_counterexample :
    parseHelperF 8 ⟨bits7, 0⟩ = .ok (8, .literal 6 0, ⟨[], 8⟩) ∧
      bits7.length = 7 ∧ (8 : Nat) ≠ 7 :=
  ⟨rfl, rfl, by norm_num⟩

/-- Claim C3, amended.  Every successful `parse_helper` invocation returns
`bits_consumed = processed-at-end - processed-at-start`; `processed`
counts every `next()` call, including calls answered by an exhausted
stream, so `bits_consumed` is an upper bound on the number of bits
actually removed from the stream, with equality whenever the invocation
ends with the stream not yet exhausted (and in particular whenever no
read ran past the end of input). -/
theorem c3_consumed_count :
    ∀ f s n p s', parseHelperF f s = .ok (n, p, s') →
      n = s'.processed - s.processed ∧
      s.processed ≤ s'.processed ∧
      s'.rest.length ≤ s.rest.length ∧
      s.rest.length - s'.rest.length ≤ n ∧
      (s'.rest ≠ [] → n = s.rest.length - s'.rest.length) := by
  intro f s n p s' h
  have hh := parseHelperF_consumes f s (n, p, s') h
  dsimp only [Consumes] at hh
  obtain ⟨⟨hlen, hple, hexact⟩, hn⟩ := hh
  refine ⟨hn, by omega, hlen, by omega, ?_⟩
  intro hne
  have hpos : 0 < s'.rest.length := List.length_pos.mpr hne
  have := hexact hpos
  omega

/-- Claim C3, witness for the amended theorem: a literal followed by one
trailing bit; the invocation reports 11 consumed bits, exactly the bits
removed from the stream, which is not exhausted. -/
theorem c3_witness :
    parseHelperF 13 ⟨encodeLiteral 0 [1] ++ [Bit.H], 0⟩ =
      .ok (11, .literal 0 1, ⟨[Bit.H], 11⟩) ∧
      (11 : Nat) = (encodeLiteral 0 [1] ++ [Bit.H]).length - [Bit.H].length :=
  ⟨rfl, by
    have h := (c3_consumed_count 13 ⟨encodeLiteral 0 [1] ++ [Bit.H], 0⟩ 11
      (.literal 0 1) ⟨[Bit.H], 11⟩ rfl).2.2.2.2 (by simp)
    simpa using h⟩

/-- Claim C4, counterexample.  A GreaterThan operator with zero children:
the claim says any operator with zero children fails with the
empty-operator error, but the binary-arity check runs first, so the error
is the arity message instead. -/
theorem c4_counterexample :
    Packet.parse_bits bitsGT0 =
      .error "binary operator does not contain exactly two supackets" ∧
      "binary operator does not contain exactly two supackets" ≠
        "operator has no supbackets" :=
  ⟨rfl, by decide⟩

/-- Claim C4, amended.  A binary operator (GreaterThan, LessThan, Equal)
whose child count differs from 2 fails with the arity error — including
the zero-children case, which therefore never reaches the empty-operator
check; a non-binary operator with zero children fails with the
empty-operator error.  In neither case is a packet returned: every packet
a successful parse returns satisfies the well-formedness both checks
enforce. -/
theorem c4_arity_checks :
    (∀ ty l, ty.binary_op = true → l.length ≠ 2 →
      validateOperator ty l = some "binary operator does not contain exactly two supackets") ∧
    (∀ (ty : OperatorType) (l : List Packet), ty.binary_op = false → l = [] →
      validateOperator ty l = some "operator has no supbackets") ∧
    (∀ f s n p s', parseHelperF f s = .ok (n, p, s') → Packet.wf p = true) ∧
    Packet.parse_bits bitsGT1 =
      .error "binary operator does not contain exactly two supackets" ∧
    Packet.parse_bits bitsSum0 = .error "operator has no supbackets" := by
  refine ⟨?_, ?_, ?_, rfl, rfl⟩
  · intro ty l hb hlen
    have hbne : (l.length != 2) = true := by simpa using hlen
    simp [validateOperator, hb, hbne]
  · intro ty l hb hl
    subst hl
    simp [validateOperator, hb]
  · intro f s n p s' h
    exact parseHelperF_wf f s (n, p, s') h

/-- Claim C4, witness for the amended theorem at concrete inputs: a
GreaterThan with zero children gets the arity error, a Sum with zero
children gets the empty-operator error. -/
theorem c4_witness :
    OperatorType.binary_op .greaterThan = true ∧
      ([] : List Packet).length ≠ 2 ∧
      validateOperator .greaterThan [] =
        some "binary operator does not contain exactly two supackets" ∧
      validateOperator .sum [] = some "operator has no supbackets" :=
  ⟨rfl, by norm_num,
    c4_arity_checks.1 .greaterThan [] rfl (by norm_num),
    c4_arity_checks.2.1 .sum [] rfl rfl⟩

/-- Claim C5.  Every packet returned by a successful parse evaluates
without hitting any of the evaluation panics: the checked evaluator — in
which the `min`/`max` reduction of an empty child list and the accesses
to children 0 and 1 of a comparison operator are the `none` cases — is
defined on it, because the parser enforced non-empty children and binary
arity. -/
theorem c5_eval_total :
    ∀ f s n p s', parseHelperF f s = .ok (n, p, s') →
      (Packet.evalChecked p).isSome = true := by
  intro f s n p s' h
  rw [wf_evalChecked p (parseHelperF_wf f s (n, p, s') h)]
  rfl

/-- Claim C5, witness at a concrete parse. -/
theorem c5_witness :
    parseHelperF 12 ⟨encodeLiteral 0 [1], 0⟩ = .ok (11, .literal 0 1, ⟨[], 11⟩) ∧
      (Packet.evalChecked (.literal 0 1)).isSome = true :=
  ⟨rfl, c5_eval_total 12 ⟨encodeLiteral 0 [1], 0⟩ 11 (.literal 0 1) ⟨[], 11⟩ rfl⟩

/-- Claim C6, counterexample.  A parsed Sum packet whose two children
evaluate to `2 ^ 64 - 1` and `1`: `eval` returns `0`, not their
arithmetic sum `2 ^ 64` — the `u64` addition wraps. -/
theorem c6_counterexample :
    Packet.parse_bits bits115 =
      .ok (.operator 0 .sum [.literal 0 (2 ^ 64 - 1), .literal 0 1]) ∧
      Packet.evalChecked (.operator 0 .sum [.literal 0 (2 ^ 64 - 1), .literal 0 1]) =
        some 0 ∧
      Packet.evalChecked (.literal 0 (2 ^ 64 - 1)) = some (2 ^ 64 - 1) ∧
      Packet.evalChecked (.literal 0 1) = some 1 ∧
      (0 : Nat) ≠ (2 ^ 64 - 1) + 1 :=
  ⟨rfl, rfl, rfl, rfl, by norm_num⟩

/-- Claim C6, amended.  Every parsed packet evaluates (without panic) to
the value of `Packet.eval`, which returns: for a literal its stored
value; for Sum and Product the sum resp. product of the children's values
reduced modulo `2 ^ 64` (the `u64` arithmetic wraps); for Min and Max the
minimum resp. maximum over the children's values; and for GreaterThan,
LessThan and Equal, `1` if the first child's value is respectively
greater than, less than, or equal to the second child's value, else
`0`. -/
theorem c6_eval_spec :
    (∀ f s n p s', parseHelperF f s = .ok (n, p, s') →
      Packet.evalChecked p = some (Packet.eval p)) ∧
    (∀ v value, Packet.eval (.literal v value) = value) ∧
    (∀ v l, Packet.eval (.operator v .sum l) = (l.map Packet.eval).sum % 2 ^ 64) ∧
    (∀ v l, Packet.eval (.operator v .product l) = (l.map Packet.eval).prod % 2 ^ 64) ∧
    (∀ v l, Packet.eval (.operator v .min l) = ((l.map Packet.eval).min?).getD 0) ∧
    (∀ v l, Packet.eval (.operator v .max l) = ((l.map Packet.eval).max?).getD 0) ∧
    (∀ v p0 p1 t, Packet.eval (.operator v .greaterThan (p0 :: p1 :: t)) =
      if Packet.eval p0 > Packet.eval p1 then 1 else 0) ∧
    (∀ v p0 p1 t, Packet.eval (.operator v .lessThan (p0 :: p1 :: t)) =
      if Packet.eval p0 < Packet.eval p1 then 1 else 0) ∧
    (∀ v p0 p1 t, Packet.eval (.operator v .equal (p0 :: p1 :: t)) =
      if Packet.eval p0 = Packet.eval p1 then 1 else 0) := by
  refine ⟨?_, fun v value => rfl, ?_, ?_, ?_, ?_, ?_, ?_, ?_⟩
  · intro f s n p s' h
    exact wf_evalChecked p (parseHelperF_wf f s (n, p, s') h)
  all_goals intro v
  · intro l; simp [Packet.eval, evalList_eq]
  · intro l; simp [Packet.eval, evalList_eq]
  · intro l; simp [Packet.eval, evalList_eq]
  · intro l; simp [Packet.eval, evalList_eq]
  all_goals intro p0 p1 t
  all_goals simp [Packet.eval, evalList]

/-- Claim C6, witness for the amended theorem at a concrete parse. -/
theorem c6_witness :
    Packet.parse_bits bits115 =
      .ok (.operator 0 .sum [.literal 0 (2 ^ 64 - 1), .literal 0 1]) ∧
      Packet.evalChecked (.operator 0 .sum [.literal 0 (2 ^ 64 - 1), .literal 0 1]) =
        some (Packet.eval (.operator 0 .sum [.literal 0 (2 ^ 64 - 1), .literal 0 1])) :=
  ⟨rfl, c6_eval_spec.1 116 ⟨bits115, 0⟩ 115
    (.operator 0 .sum [.literal 0 (2 ^ 64 - 1), .literal 0 1]) ⟨[], 115⟩ rfl⟩

/-- Claim C7.  For every packet, `version_sum` is the packet's own version
plus the sum of `version_sum` over all of its children; a literal has no
children, so its child sum is `0`. -/
theorem c7_version_sum :
    ∀ p : Packet, Packet.version_sum p =
      p.version + (p.children.map Packet.version_sum).sum := by
  intro p
  cases p with
  | literal v value => simp [Packet.version_sum, Packet.version, Packet.children]
  | operator v ty l =>
    simp [Packet.version_sum, Packet.version, Packet.children, versionSumList_eq]

/-- Claim C8, counterexample.  A literal packet of 17 nibble groups
encoding the integer `2 ^ 64` parses successfully, but the stored value
is `0`, not the exact encoded integer: the `u64` accumulator dropped the
high bits. -/
theorem c8_counterexample :
    Packet.parse_bits (encodeLiteral 0 (1 :: List.replicate 16 0)) =
      .ok (.literal 0 0) ∧
      nibblesVal (1 :: List.replicate 16 0) = 2 ^ 64 ∧
      (0 : Nat) ≠ 2 ^ 64 :=
  ⟨rfl, by decide, by norm_num⟩

/-- Claim C8, amended.  Decoding a literal-only packet reads a
continuation bit and a 4-bit nibble per group, folds each nibble in by a
shift-left-by-4 and an OR on the 64-bit accumulator, and stops after the
first group whose continuation bit is 0; the stored value is the integer
encoded by the chained nibble groups reduced modulo `2 ^ 64` — exact
(including all values above 32 bits) precisely whenever the encoded
integer fits in 64 bits. -/
theorem c8_literal_roundtrip :
    ∀ v nibs, v < 8 → nibs ≠ [] → (∀ n ∈ nibs, n < 16) →
      Packet.parse_bits (encodeLiteral v nibs) =
        .ok (.literal v (nibblesVal nibs % 2 ^ 64)) ∧
      (nibblesVal nibs < 2 ^ 64 →
        Packet.parse_bits (encodeLiteral v nibs) =
          .ok (.literal v (nibblesVal nibs))) := by
  intro v nibs hv hne hlt
  have h := parse_bits_encodeLiteral v nibs hv hne hlt
  exact ⟨h, fun hfit => by rwa [Nat.mod_eq_of_lt hfit] at h⟩

/-- Claim C8, witness for the amended theorem: the two-nibble literal
`0x23` round-trips exactly. -/
theorem c8_witness :
    Packet.parse_bits (encodeLiteral 1 [2, 3]) = .ok (.literal 1 35) :=
  (c8_literal_roundtrip 1 [2, 3] (by norm_num) (by simp)
    (by intro n hn; fin_cases hn <;> norm_num)).2 (by norm_num [nibblesVal])

/-- Claim C10.  A literal whose continuation chain is longer than 16
nibble groups (an encoded integer wider than 64 bits) still parses
successfully with no error, and the stored value is the encoded integer
reduced modulo `2 ^ 64`: each shift-left-by-4 of the 64-bit accumulator
silently discards the high four bits. -/
theorem c10_literal_wrap :
    ∀ v nibs, v < 8 → (∀ n ∈ nibs, n < 16) → 16 < nibs.length →
      Packet.parse_bits (encodeLiteral v nibs) =
        .ok (.literal v (nibblesVal nibs % 2 ^ 64)) := by
  intro v nibs hv hlt hlen
  refine parse_bits_encodeLiteral v nibs hv ?_ hlt
  intro hnil
  rw [hnil] at hlen
  simp at hlen

/-- Claim C10, witness: 17 nibble groups encoding `2 ^ 64`, stored as
`0`. -/
theorem c10_witness :
    16 < (1 :: List.replicate 16 0).length ∧
      Packet.parse_bits (encodeLiteral 0 (1 :: List.replicate 16 0)) =
        .ok (.literal 0 (nibblesVal (1 :: List.replicate 16 0) % 2 ^ 64)) :=
  ⟨by decide, c10_literal_wrap 0 (1 :: List.replicate 16 0) (by norm_num)
    (by decide) (by decide)⟩

theorem flatMap_map_eq (l : List Char) (f : Char → Nat) (g : Nat → List Bit) :
    (l.map f).flatMap g = l.flatMap (fun c => g (f c)) := by
  induction l with
  | nil => rfl
  | cons a t ih => simp [ih]

/-- Claim C9.  Decoding first trims surrounding whitespace, then maps
every remaining character, as a case-insensitive hexadecimal digit, to
exactly its four bits most-significant-first, in input order; if any
remaining character is not a hexadecimal digit the whole decode fails —
`to_bits` yields nothing and `parse` reports the invalid-hex error, with
no partial bit stream or packet. -/
theorem c9_to_bits :
    ∀ input : List Char,
      ((∀ c ∈ trim input, isHexDigit c = true) →
        to_bits input = some ((trim input).flatMap fun c => natBits 4 (hexVal c))) ∧
      ((∃ c ∈ trim input, isHexDigit c = false) →
        to_bits input = none ∧ Packet.parse input = .error "invalid hex input") := by
  intro input
  constructor
  · intro hall
    have hc := collectDigits_all (trim input) hall
    simp only [to_bits, hc]
    congr 1
    rw [flatMap_map_eq]
    rfl
  · rintro ⟨c, hc, hfalse⟩
    have h := collectDigits_none (trim input) c hc hfalse
    exact ⟨by simp [to_bits, h], by simp [Packet.parse, to_bits, h]⟩

/-- Claim C9, witness at the source's own `to_bits` test input,
including a trailing newline to be trimmed. -/
theorem c9_witness :
    to_bits "1F3\n".toList =
      some [Bit.L, Bit.L, Bit.L, Bit.H, Bit.H, Bit.H, Bit.H, Bit.H,
        Bit.L, Bit.L, Bit.H, Bit.H] := by
  have h := (c9_to_bits "1F3\n".toList).1 (by decide)
  simpa using h

/-- Validation of the embedding against the source's `test_to_bits`. -/
theorem to_bits_source_test :
    to_bits "1F3\n".toList =
      some [Bit.L, Bit.L, Bit.L, Bit.H, Bit.H, Bit.H, Bit.H, Bit.H,
        Bit.L, Bit.L, Bit.H, Bit.H] := by
  decide

/-- Validation of the embedding against the source's `test_parse_bits`:
the example bit string's version sum is `7 + 2 + 4 + 1`. -/
theorem parse_bits_source_test :
    (Packet.parse_bits
        ("11101110000000001101010000001100100000100011000001100000".toList.map
          fun c => if c = '1' then Bit.H else Bit.L)).map Packet.version_sum =
      .ok 14 := rfl

/-- Validation of the embedding against the source's `test_eval`. -/
theorem eval_source_tests :
    (Packet.parse "C200B40A82\n".toList).map Packet.eval = .ok 3 ∧
    (Packet.parse "04005AC33890".toList).map Packet.eval = .ok 54 ∧
    (Packet.parse "880086C3E88112".toList).map Packet.eval = .ok 7 ∧
    (Packet.parse "CE00C43D881120".toList).map Packet.eval = .ok 9 ∧
    (Packet.parse "D8005AC2A8F0".toList).map Packet.eval = .ok 1 ∧
    (Packet.parse "F600BC2D8F".toList).map Packet.eval = .ok 0 ∧
    (Packet.parse "9C005AC2F8F0".toList).map Packet.eval = .ok 0 ∧
    (Packet.parse "9C0141080250320F1802104A08".toList).map Packet.eval = .ok 1 :=
  ⟨rfl, rfl, rfl, rfl, rfl, rfl, rfl, rfl⟩

/-- Validation of the embedding against the version-sum reference
vectors. -/
theorem version_sum_reference_vectors :
    (Packet.parse "8A004A801A8002F478".toList).map Packet.version_sum = .ok 16 ∧
    (Packet.parse "620080001611562C8802118E34".toList).map Packet.version_sum = .ok 12 ∧
    (Packet.parse "C0015000016115A2E0802F182340".toList).map Packet.version_sum = .ok 23 ∧
    (Packet.parse "A0016C880162017C3686B18A3D4780".toList).map Packet.version_sum =
      .ok 31 :=
  ⟨rfl, rfl, rfl, rfl⟩

end Day16
